import Mathlib

/-!
Verification of the mu_string library (mu_string.c / mu_string.h).

Shallow embedding: byte memory is a finite address space modelled as a list
of bytes (a read outside the space yields 0, a write outside it is dropped).
A C pointer is `Option Nat` (`none` is the NULL pointer, `some a` the
address `a`).  `size_t` values are `Nat`, the C `int` slice indices are
`Int`.  Predicate callbacks `mu_string_pred_t` are `Option (Nat → Bool)`
(`none` is a NULL function pointer; the opaque user argument is folded into
the closure).  The optional `after` out-parameter of the split family is
modelled by a Bool flag selecting whether the callee writes it; the written
value (if any) is returned as the second component of a pair.
-/

namespace MuString

/-- Byte memory: a finite address space. -/
abbrev Mem := List Nat

/-- Read the byte at address `a` (0 outside the address space). -/
def rd (m : Mem) (a : Nat) : Nat := m.getD a 0

/-- The C struct mu_string_t: a read-only view { const char *buf; size_t len; }. -/
structure mu_string_t where
  buf : Option Nat
  len : Nat
deriving DecidableEq

/-- The C struct mu_string_mut_t: a mutable segment { char *buf; size_t len; }. -/
structure mu_string_mut_t where
  buf : Option Nat
  len : Nat
deriving DecidableEq

/-- SIZE_MAX on the (64-bit size_t) target. -/
def SIZE_MAX : Nat := 2 ^ 64 - 1

/-- Address of the static empty string literal used by MU_STRING_EMPTY. -/
def emptyLitAddr : Nat := 0

/-- MU_STRING_EMPTY: { .buf = "", .len = 0 } (non-null buffer). -/
def MU_STRING_EMPTY : mu_string_t := ⟨some emptyLitAddr, 0⟩

/-- MU_STRING_NOT_FOUND: { .buf = NULL, .len = 0 }. -/
def MU_STRING_NOT_FOUND : mu_string_t := ⟨none, 0⟩

/-- MU_STRING_INVALID: { .buf = NULL, .len = SIZE_MAX }. -/
def MU_STRING_INVALID : mu_string_t := ⟨none, SIZE_MAX⟩

/-- MU_STRING_END: INT_MAX, the end-of-string slice index sentinel. -/
def MU_STRING_END : Int := 2 ^ 31 - 1

/-- Pointer arithmetic p + k on a possibly-NULL pointer (the code only forms
it when the offset is 0 or the pointer is non-null). -/
def bufAdd : Option Nat → Nat → Option Nat
  | some a, k => some (a + k)
  | none, _ => none

/-- Bytes of the region [a, a+n). -/
def readBytes (m : Mem) : Nat → Nat → List Nat
  | _, 0 => []
  | a, n + 1 => rd m a :: readBytes m (a + 1) n

/-- Content bytes of a view. -/
def viewBytes (m : Mem) (s : mu_string_t) : List Nat :=
  match s.buf with
  | some a => readBytes m a s.len
  | none => []

/-- memcpy of a byte list into the region starting at `a`. -/
def writeBytes : Mem → Nat → List Nat → Mem
  | m, _, [] => m
  | m, a, b :: bs => writeBytes (m.set a b) (a + 1) bs

/-- Forward linear scan: the first index `j` in [i, i+k) with `p j = true`. -/
def findFirstAux (p : Nat → Bool) : Nat → Nat → Option Nat
  | _, 0 => none
  | i, k + 1 => if p i then some i else findFirstAux p (i + 1) k

/-- First index in [0, n) satisfying `p` (the forward search loops). -/
def findFirstIdx (p : Nat → Bool) (n : Nat) : Option Nat := findFirstAux p 0 n

/-- Last index in [0, n) satisfying `p` (the backward search loops). -/
def findLastIdx (p : Nat → Bool) : Nat → Option Nat
  | 0 => none
  | n + 1 => if p n then some n else findLastIdx p n

/-- Length of the maximal prefix of region [a, a+n) whose bytes satisfy `q`
(the leading while loops of trim / find_first_not_pred). -/
def leadCount (m : Mem) : Nat → (Nat → Bool) → Nat → Nat
  | _, _, 0 => 0
  | a, q, n + 1 => if q (rd m a) then leadCount m (a + 1) q n + 1 else 0

/-- Length of the maximal suffix of region [a, a+n) whose bytes satisfy `q`
(the trailing while loop of trim). -/
def trailCount (m : Mem) (a : Nat) (q : Nat → Bool) : Nat → Nat
  | 0 => 0
  | n + 1 => if q (rd m (a + n)) then trailCount m a q n + 1 else 0

/-- Application of a possibly-NULL predicate: a NULL predicate never matches. -/
def muPredApp : Option (Nat → Bool) → Nat → Bool
  | none, _ => false
  | some q, b => q b

/-- mu_string_is_valid: valid iff the buffer is non-NULL or the length is 0. -/
def mu_string_is_valid (s : mu_string_t) : Bool := s.buf.isSome || s.len == 0

/-- strlen on the model memory: bytes from `a` up to the first 0 byte. -/
def cstrLen (m : Mem) (a : Nat) : Nat := ((m.drop a).takeWhile (fun b => b != 0)).length

/-- mu_string_from_cstr. -/
def mu_string_from_cstr (m : Mem) (cstr : Option Nat) : mu_string_t :=
  match cstr with
  | none => MU_STRING_EMPTY
  | some a => ⟨some a, cstrLen m a⟩

/-- mu_string_from_buf. -/
def mu_string_from_buf (buf : Option Nat) (len : Nat) : mu_string_t :=
  match buf with
  | none => if 0 < len then MU_STRING_INVALID else MU_STRING_EMPTY
  | some a => ⟨some a, len⟩

/-- mu_string_find_char. -/
def mu_string_find_char (m : Mem) (s : mu_string_t) (c : Nat) : mu_string_t :=
  if mu_string_is_valid s = false then MU_STRING_INVALID
  else if s.len == 0 then MU_STRING_EMPTY
  else
    match s.buf with
    | some a =>
      match findFirstIdx (fun i => rd m (a + i) == c) s.len with
      | some i => ⟨some (a + i), s.len - i⟩
      | none => MU_STRING_EMPTY
    | none => MU_STRING_INVALID -- unreachable: valid and nonempty has a non-null buffer

/-- mu_string_rfind_char. -/
def mu_string_rfind_char (m : Mem) (s : mu_string_t) (c : Nat) : mu_string_t :=
  if mu_string_is_valid s = false then MU_STRING_INVALID
  else if s.len == 0 then MU_STRING_EMPTY
  else
    match s.buf with
    | some a =>
      match findLastIdx (fun i => rd m (a + i) == c) s.len with
      | some i => ⟨some (a + i), s.len - i⟩
      | none => MU_STRING_EMPTY
    | none => MU_STRING_INVALID -- unreachable

/-- mu_string_find_pred. -/
def mu_string_find_pred (m : Mem) (s : mu_string_t) (p : Option (Nat → Bool)) : mu_string_t :=
  if mu_string_is_valid s = false then MU_STRING_INVALID
  else if s.len == 0 || p.isNone then MU_STRING_EMPTY
  else
    match s.buf, p with
    | some a, some q =>
      match findFirstIdx (fun i => q (rd m (a + i))) s.len with
      | some i => ⟨some (a + i), s.len - i⟩
      | none => MU_STRING_EMPTY
    | _, _ => MU_STRING_INVALID -- unreachable

/-- mu_string_rfind_pred. -/
def mu_string_rfind_pred (m : Mem) (s : mu_string_t) (p : Option (Nat → Bool)) : mu_string_t :=
  if mu_string_is_valid s = false then MU_STRING_INVALID
  else if s.len == 0 || p.isNone then MU_STRING_EMPTY
  else
    match s.buf, p with
    | some a, some q =>
      match findLastIdx (fun i => q (rd m (a + i))) s.len with
      | some i => ⟨some (a + i), s.len - i⟩
      | none => MU_STRING_EMPTY
    | _, _ => MU_STRING_INVALID -- unreachable

/-- mu_string_find_first_not_pred. -/
def mu_string_find_first_not_pred (m : Mem) (s : mu_string_t)
    (p : Option (Nat → Bool)) : mu_string_t :=
  if mu_string_is_valid s = false then MU_STRING_INVALID
  else if s.len == 0 then MU_STRING_EMPTY
  else
    match p with
    | none => s
    | some q =>
      match s.buf with
      | some a =>
        let st := leadCount m a q s.len
        if st == s.len then MU_STRING_EMPTY
        else ⟨some (a + st), s.len - st⟩
      | none => MU_STRING_INVALID -- unreachable

/-- mu_string_find_str (brute-force first-occurrence substring search). -/
def mu_string_find_str (m : Mem) (hay needle : mu_string_t) : mu_string_t :=
  if mu_string_is_valid hay = false ∨ mu_string_is_valid needle = false then
    MU_STRING_INVALID
  else if needle.len == 0 then hay
  else if hay.len < needle.len then MU_STRING_EMPTY
  else
    match hay.buf, needle.buf with
    | some ha, some na =>
      match findFirstIdx
          (fun i => readBytes m (ha + i) needle.len == readBytes m na needle.len)
          (hay.len - needle.len + 1) with
      | some i => ⟨some (ha + i), hay.len - i⟩
      | none => MU_STRING_EMPTY
    | _, _ => MU_STRING_INVALID -- unreachable

/-- Slice index normalization: a negative index is offset from the end,
then the index is clamped into [0, len]. -/
def normIdx (len : Nat) (idx : Int) : Nat :=
  let x : Int := if idx < 0 then (len : Int) + idx else idx
  let y : Int := if x < 0 then 0 else x
  min y.toNat len

/-- mu_string_slice. -/
def mu_string_slice (s : mu_string_t) (start stop : Int) : mu_string_t :=
  if mu_string_is_valid s = false then MU_STRING_INVALID
  else if s.len == 0 then MU_STRING_EMPTY
  else
    let st := normIdx s.len start
    let en := normIdx s.len stop
    if en ≤ st then MU_STRING_EMPTY
    else
      match s.buf with
      | some a => ⟨some (a + st), en - st⟩
      | none => MU_STRING_INVALID -- unreachable

/-- mu_string_trim. -/
def mu_string_trim (m : Mem) (s : mu_string_t) (p : Option (Nat → Bool)) : mu_string_t :=
  if mu_string_is_valid s = false then MU_STRING_INVALID
  else if s.len == 0 || p.isNone then s
  else
    match s.buf, p with
    | some a, some q =>
      let st := leadCount m a q s.len
      if st == s.len then MU_STRING_EMPTY
      else
        let t := trailCount m (a + st) q (s.len - st)
        ⟨some (a + st), s.len - st - t⟩
    | _, _ => MU_STRING_INVALID -- unreachable

/-- The static split helper mu_string_split_handle_result. -/
def mu_string_split_handle_result (s : mu_string_t) (afterReq : Bool)
    (foundIdx : Nat) : mu_string_t × Option mu_string_t :=
  if foundIdx < s.len then
    (⟨s.buf, foundIdx⟩,
     if afterReq then some ⟨bufAdd s.buf foundIdx, s.len - foundIdx⟩ else none)
  else
    (s, if afterReq then some ⟨bufAdd s.buf s.len, 0⟩ else none)

/-- mu_string_split_at_char. -/
def mu_string_split_at_char (m : Mem) (s : mu_string_t) (afterReq : Bool)
    (c : Nat) : mu_string_t × Option mu_string_t :=
  if mu_string_is_valid s = false then
    (MU_STRING_INVALID, if afterReq then some MU_STRING_INVALID else none)
  else
    let foundIdx :=
      match s.buf with
      | some a => (findFirstIdx (fun i => rd m (a + i) == c) s.len).getD s.len
      | none => s.len
    if foundIdx ≠ s.len then
      (⟨s.buf, foundIdx⟩,
       if afterReq then some ⟨bufAdd s.buf foundIdx, s.len - foundIdx⟩ else none)
    else
      (s, if afterReq then some MU_STRING_NOT_FOUND else none)

/-- mu_string_split_by_pred. -/
def mu_string_split_by_pred (m : Mem) (s : mu_string_t) (afterReq : Bool)
    (p : Option (Nat → Bool)) : mu_string_t × Option mu_string_t :=
  match p with
  | none => (MU_STRING_INVALID, if afterReq then some MU_STRING_INVALID else none)
  | some q =>
    if mu_string_is_valid s = false then
      (MU_STRING_INVALID, if afterReq then some MU_STRING_INVALID else none)
    else
      let splitIdx :=
        match s.buf with
        | some a => (findFirstIdx (fun i => q (rd m (a + i))) s.len).getD s.len
        | none => s.len
      if splitIdx = s.len then
        (s, if afterReq then some ⟨bufAdd s.buf s.len, 0⟩ else none)
      else
        mu_string_split_handle_result s afterReq splitIdx

/-- mu_string_split_by_not_pred. -/
def mu_string_split_by_not_pred (m : Mem) (s : mu_string_t) (afterReq : Bool)
    (p : Option (Nat → Bool)) : mu_string_t × Option mu_string_t :=
  match p with
  | none => (MU_STRING_INVALID, if afterReq then some MU_STRING_INVALID else none)
  | some q =>
    if mu_string_is_valid s = false then
      (MU_STRING_INVALID, if afterReq then some MU_STRING_INVALID else none)
    else
      let foundIdx :=
        match s.buf with
        | some a => (findFirstIdx (fun i => !(q (rd m (a + i)))) s.len).getD s.len
        | none => s.len
      mu_string_split_handle_result s afterReq foundIdx

/-- mu_string_append (returns the updated memory and the remaining segment). -/
def mu_string_append (m : Mem) (dst : mu_string_mut_t) (src : mu_string_t) :
    Mem × mu_string_mut_t :=
  match dst.buf with
  | none => (m, dst)
  | some b =>
    if mu_string_is_valid src = false then (m, dst)
    else if src.len == 0 then (m, dst)
    else
      let w := min src.len dst.len
      (writeBytes m b ((viewBytes m src).take w), ⟨some (b + w), dst.len - w⟩)

/-- Chaining mu_string_append over a sequence of source views, in the
cursor pattern of the library. -/
def mu_string_append_all : Mem → mu_string_mut_t → List mu_string_t → Mem × mu_string_mut_t
  | m, dst, [] => (m, dst)
  | m, dst, v :: vs =>
    let r := mu_string_append m dst v
    mu_string_append_all r.1 r.2 vs

/-- Total length of a sequence of views. -/
def totalLen (vs : List mu_string_t) : Nat := (vs.map mu_string_t.len).sum

/-- A view is separated from the buffer region [b, b+cap): their byte ranges
do not overlap (a NULL-buffer view occupies no bytes). -/
def sep (b cap : Nat) (v : mu_string_t) : Bool :=
  match v.buf with
  | none => true
  | some a => decide (a + v.len ≤ b) || decide (b + cap ≤ a)

/-! Basic lemmas about the scan helpers. -/

theorem findFirstAux_eq_none (p : Nat → Bool) :
    ∀ (k i : Nat), (∀ j, j < k → p (i + j) = false) → findFirstAux p i k = none := by
  intro k
  induction k with
  | zero => intro i _; rfl
  | succ k ih =>
    intro i h
    have h0 : p i = false := by simpa using h 0 (Nat.succ_pos k)
    simp only [findFirstAux, h0, Bool.false_eq_true, if_false]
    exact ih (i + 1) (fun j hj => by
      have := h (j + 1) (Nat.succ_lt_succ hj)
      simpa [Nat.add_assoc, Nat.add_comm 1 j] using this)

theorem findFirstAux_eq_some (p : Nat → Bool) :
    ∀ (k i j : Nat), j < k → p (i + j) = true →
      (∀ l, l < j → p (i + l) = false) → findFirstAux p i k = some (i + j) := by
  intro k
  induction k with
  | zero => intro i j hj; omega
  | succ k ih =>
    intro i j hj hp hmin
    cases j with
    | zero =>
      simp only [Nat.add_zero] at hp
      simp [findFirstAux, hp]
    | succ j =>
      have h0 : p i = false := by simpa using hmin 0 (Nat.succ_pos j)
      simp only [findFirstAux, h0, Bool.false_eq_true, if_false]
      have hres := ih (i + 1) j (Nat.lt_of_succ_lt_succ hj)
        (by simpa [Nat.add_assoc, Nat.add_comm 1 j] using hp)
        (fun l hl => by
          have := hmin (l + 1) (Nat.succ_lt_succ hl)
          simpa [Nat.add_assoc, Nat.add_comm 1 l] using this)
      rw [hres]
      congr 1
      omega

theorem findFirstIdx_eq_none (p : Nat → Bool) (n : Nat)
    (h : ∀ j, j < n → p j = false) : findFirstIdx p n = none :=
  findFirstAux_eq_none p n 0 (fun j hj => by simpa using h j hj)

theorem findFirstIdx_eq_some (p : Nat → Bool) (n j : Nat) (hj : j < n)
    (hp : p j = true) (hmin : ∀ l, l < j → p l = false) :
    findFirstIdx p n = some j := by
  have := findFirstAux_eq_some p n 0 j hj (by simpa using hp)
    (fun l hl => by simpa using hmin l hl)
  simpa using this

theorem findLastIdx_eq_none (p : Nat → Bool) :
    ∀ n, (∀ j, j < n → p j = false) → findLastIdx p n = none := by
  intro n
  induction n with
  | zero => intro _; rfl
  | succ n ih =>
    intro h
    have hn : p n = false := h n (Nat.lt_succ_self n)
    simp only [findLastIdx, hn, Bool.false_eq_true, if_false]
    exact ih (fun j hj => h j (Nat.lt_succ_of_lt hj))

/-! Lemmas about leadCount and trailCount. -/

theorem leadCount_le (m : Mem) (q : Nat → Bool) :
    ∀ (n a : Nat), leadCount m a q n ≤ n := by
  intro n
  induction n with
  | zero => intro a; simp [leadCount]
  | succ n ih =>
    intro a
    simp only [leadCount]
    split
    · exact Nat.succ_le_succ (ih (a + 1))
    · exact Nat.zero_le _

theorem leadCount_false_at (m : Mem) (q : Nat → Bool) :
    ∀ (n a : Nat), leadCount m a q n < n →
      q (rd m (a + leadCount m a q n)) = false := by
  intro n
  induction n with
  | zero => intro a h; omega
  | succ n ih =>
    intro a h
    by_cases hq : q (rd m a) = true
    · simp only [leadCount, hq, if_true] at h ⊢
      have hlt : leadCount m (a + 1) q n < n := by omega
      have := ih (a + 1) hlt
      have harr : a + (leadCount m (a + 1) q n + 1) = a + 1 + leadCount m (a + 1) q n := by
        omega
      rw [harr]
      exact this
    · have hq' : q (rd m a) = false := by
        cases hqq : q (rd m a) with
        | true => exact absurd hqq hq
        | false => rfl
      simp [leadCount, hq']

theorem leadCount_eq_of_all (m : Mem) (q : Nat → Bool) :
    ∀ (n a : Nat), (∀ i, i < n → q (rd m (a + i)) = true) → leadCount m a q n = n := by
  intro n
  induction n with
  | zero => intro a _; rfl
  | succ n ih =>
    intro a h
    have h0 : q (rd m a) = true := by simpa using h 0 (Nat.succ_pos n)
    simp only [leadCount, h0, if_true]
    have := ih (a + 1) (fun i hi => by
      have := h (i + 1) (Nat.succ_lt_succ hi)
      simpa [Nat.add_assoc, Nat.add_comm 1 i] using this)
    omega

theorem leadCount_eq_zero (m : Mem) (q : Nat → Bool) (a n : Nat)
    (h : q (rd m a) = false) : leadCount m a q n = 0 := by
  cases n with
  | zero => rfl
  | succ n => simp [leadCount, h]

theorem trailCount_le (m : Mem) (a : Nat) (q : Nat → Bool) :
    ∀ n, trailCount m a q n ≤ n := by
  intro n
  induction n with
  | zero => simp [trailCount]
  | succ n ih =>
    simp only [trailCount]
    split
    · exact Nat.succ_le_succ ih
    · exact Nat.zero_le _

theorem trailCount_false_at (m : Mem) (a : Nat) (q : Nat → Bool) :
    ∀ n, trailCount m a q n < n →
      q (rd m (a + (n - trailCount m a q n - 1))) = false := by
  intro n
  induction n with
  | zero => intro h; omega
  | succ n ih =>
    intro h
    by_cases hq : q (rd m (a + n)) = true
    · simp only [trailCount, hq, if_true] at h ⊢
      have hlt : trailCount m a q n < n := by omega
      have := ih hlt
      have harr : n + 1 - (trailCount m a q n + 1) - 1 = n - trailCount m a q n - 1 := by
        omega
      rw [harr]
      exact this
    · have hq' : q (rd m (a + n)) = false := by
        cases hqq : q (rd m (a + n)) with
        | true => exact absurd hqq hq
        | false => rfl
      simp only [trailCount, hq', Bool.false_eq_true, if_false]
      simpa using hq'

theorem trailCount_all_of_eq (m : Mem) (a : Nat) (q : Nat → Bool) :
    ∀ n, trailCount m a q n = n → ∀ i, i < n → q (rd m (a + i)) = true := by
  intro n
  induction n with
  | zero => intro _ i hi; omega
  | succ n ih =>
    intro h i hi
    by_cases hq : q (rd m (a + n)) = true
    · simp only [trailCount, hq, if_true] at h
      have hn : trailCount m a q n = n := by omega
      rcases Nat.lt_succ_iff_lt_or_eq.mp hi with hlt | heq
      · exact ih hn i hlt
      · subst heq; exact hq
    · have hq' : q (rd m (a + n)) = false := by
        cases hqq : q (rd m (a + n)) with
        | true => exact absurd hqq hq
        | false => rfl
      simp only [trailCount, hq', Bool.false_eq_true, if_false] at h
      omega

theorem trailCount_eq_zero (m : Mem) (a : Nat) (q : Nat → Bool) (n : Nat)
    (hn : n ≠ 0) (h : q (rd m (a + (n - 1))) = false) : trailCount m a q n = 0 := by
  cases n with
  | zero => exact absurd rfl hn
  | succ n => simp only [trailCount]; simp only [Nat.succ_sub_one] at h; simp [h]

/-! Lemmas about readBytes and writeBytes. -/

theorem readBytes_length (m : Mem) : ∀ (n a : Nat), (readBytes m a n).length = n := by
  intro n
  induction n with
  | zero => intro a; rfl
  | succ n ih => intro a; simp [readBytes, ih]

theorem rd_mem_readBytes (m : Mem) :
    ∀ (n a j : Nat), j < n → rd m (a + j) ∈ readBytes m a n := by
  intro n
  induction n with
  | zero => intro a j h; omega
  | succ n ih =>
    intro a j h
    cases j with
    | zero => simp [readBytes]
    | succ j =>
      have := ih (a + 1) j (Nat.lt_of_succ_lt_succ h)
      simp only [readBytes, List.mem_cons]
      right
      have harr : a + (j + 1) = a + 1 + j := by omega
      rw [harr]
      exact this

theorem readBytes_congr (m1 m2 : Mem) :
    ∀ (n a : Nat), (∀ j, j < n → rd m1 (a + j) = rd m2 (a + j)) →
      readBytes m1 a n = readBytes m2 a n := by
  intro n
  induction n with
  | zero => intro a _; rfl
  | succ n ih =>
    intro a h
    simp only [readBytes]
    have h0 : rd m1 a = rd m2 a := by simpa using h 0 (Nat.succ_pos n)
    rw [h0, ih (a + 1) (fun j hj => by
      have := h (j + 1) (Nat.succ_lt_succ hj)
      simpa [Nat.add_assoc, Nat.add_comm 1 j] using this)]

theorem readBytes_split (m : Mem) :
    ∀ (p q a : Nat), readBytes m a (p + q) = readBytes m a p ++ readBytes m (a + p) q := by
  intro p
  induction p with
  | zero => intro q a; simp [readBytes]
  | succ p ih =>
    intro q a
    have harr : p + 1 + q = (p + q) + 1 := by omega
    rw [harr]
    simp only [readBytes, List.cons_append]
    rw [ih q (a + 1)]
    have harr2 : a + 1 + p = a + (p + 1) := by omega
    rw [harr2]

theorem writeBytes_length (m : Mem) :
    ∀ (bs : List Nat) (a : Nat), (writeBytes m a bs).length = m.length := by
  intro bs
  induction bs generalizing m with
  | nil => intro a; rfl
  | cons b bs ih =>
    intro a
    simp only [writeBytes]
    rw [ih (m.set a b) (a + 1)]
    exact m.length_set a b

theorem rd_set_ne (m : Mem) (a x : Nat) (b : Nat) (h : x ≠ a) :
    rd (m.set a b) x = rd m x := by
  simp only [rd, List.getD_eq_getElem?_getD]
  rw [List.getElem?_set_ne (fun heq => h heq.symm)]

theorem rd_writeBytes_outside (m : Mem) :
    ∀ (bs : List Nat) (a x : Nat), (x < a ∨ a + bs.length ≤ x) →
      rd (writeBytes m a bs) x = rd m x := by
  intro bs
  induction bs generalizing m with
  | nil => intro a x _; rfl
  | cons b bs ih =>
    intro a x h
    simp only [writeBytes]
    have h1 : x < a + 1 ∨ a + 1 + bs.length ≤ x := by
      simp only [List.length_cons] at h
      omega
    rw [ih (m.set a b) (a + 1) x h1]
    exact rd_set_ne m a x b (by simp only [List.length_cons] at h; omega)

theorem rd_set_self (m : Mem) (a : Nat) (b : Nat) (h : a < m.length) :
    rd (m.set a b) a = b := by
  simp only [rd, List.getD_eq_getElem?_getD]
  rw [List.getElem?_set_self (by simpa using h)]
  rfl

theorem readBytes_writeBytes (m : Mem) :
    ∀ (bs : List Nat) (a : Nat), a + bs.length ≤ m.length →
      readBytes (writeBytes m a bs) a bs.length = bs := by
  intro bs
  induction bs generalizing m with
  | nil => intro a _; rfl
  | cons b bs ih =>
    intro a h
    simp only [List.length_cons] at h
    simp only [writeBytes, List.length_cons, readBytes]
    have h0 : rd (writeBytes (m.set a b) (a + 1) bs) a = b := by
      rw [rd_writeBytes_outside (m.set a b) bs (a + 1) a (Or.inl (Nat.lt_succ_self a))]
      exact rd_set_self m a b (by omega)
    rw [h0, ih (m.set a b) (a + 1) (by rw [m.length_set a b]; omega)]

/-! Small facts about validity used throughout. -/

theorem valid_buf_of_len_ne_zero (s : mu_string_t)
    (hv : mu_string_is_valid s = true) (hl : s.len ≠ 0) : ∃ a, s.buf = some a := by
  cases hb : s.buf with
  | some a => exact ⟨a, rfl⟩
  | none =>
    exfalso
    simp only [mu_string_is_valid, hb, Option.isSome_none, Bool.false_or, beq_iff_eq] at hv
    exact hl hv

/-- The memory holding the bytes of the C string "no delimiter" at address 0. -/
def c1mem : Mem := [110, 111, 32, 100, 101, 108, 105, 109, 105, 116, 101, 114]

/-- Claim C1 (code_bug evidence): at the failing input
splitAtChar("no delimiter", 61), the code returns the whole subject as the
"before" result (not the NotFound sentinel demanded by the header contract
and the unit tests), while writing NotFound into `after`; and
splitByNotPredicate with an always-true predicate returns the whole subject
and writes the empty-at-end slice into `after`, again not NotFound. -/
theorem C1_split_not_found_code_result :
    mu_string_split_at_char c1mem ⟨some 0, 12⟩ true 61
        = (⟨some 0, 12⟩, some MU_STRING_NOT_FOUND)
    ∧ (⟨some 0, 12⟩ : mu_string_t) ≠ MU_STRING_NOT_FOUND
    ∧ mu_string_split_by_not_pred c1mem ⟨some 0, 12⟩ true (some (fun _ => true))
        = (⟨some 0, 12⟩, some ⟨some 12, 0⟩)
    ∧ (⟨some 12, 0⟩ : mu_string_t) ≠ MU_STRING_NOT_FOUND := by
  refine ⟨by decide, by decide, by decide, by decide⟩

/-- Claim C2 (counterexample): the view { NULL, 5 } is rejected by
mu_string_is_valid even though it is not the Invalid sentinel
{ NULL, SIZE_MAX }, so the negation boundary of isValid is not exactly the
Invalid sentinel. -/
theorem C2_is_valid_counterexample :
    mu_string_is_valid ⟨none, 5⟩ = false
    ∧ (⟨none, 5⟩ : mu_string_t) ≠ MU_STRING_INVALID := by
  refine ⟨by decide, by decide⟩

/-- Claim C2 (amended): mu_string_is_valid v returns false iff v.buf is NULL
and v.len is nonzero; the Invalid sentinel { NULL, SIZE_MAX } is one such
value, but every { NULL, len > 0 } view is likewise rejected. -/
theorem C2_is_valid_false_iff (v : mu_string_t) :
    (mu_string_is_valid v = false ↔ v.buf = none ∧ v.len ≠ 0)
    ∧ mu_string_is_valid MU_STRING_INVALID = false := by
  constructor
  · cases hb : v.buf with
    | some a => simp [mu_string_is_valid, hb]
    | none => simp [mu_string_is_valid, hb]
  · decide

/-- Claim C10: mu_string_from_cstr applied to a NULL pointer returns the
canonical Empty view (valid, length 0, non-null buffer), not the Invalid
sentinel; by contrast mu_string_from_buf(NULL, len) with len > 0 returns
Invalid. -/
theorem C10_from_cstr_null (m : Mem) :
    mu_string_from_cstr m none = MU_STRING_EMPTY
    ∧ mu_string_is_valid MU_STRING_EMPTY = true
    ∧ MU_STRING_EMPTY.len = 0
    ∧ MU_STRING_EMPTY.buf ≠ none
    ∧ MU_STRING_EMPTY ≠ MU_STRING_INVALID
    ∧ (∀ n : Nat, 0 < n → mu_string_from_buf none n = MU_STRING_INVALID) := by
  refine ⟨rfl, by decide, rfl, by decide, by decide, ?_⟩
  intro n hn
  simp [mu_string_from_buf, hn]

/-- Witness for C10 at concrete inputs. -/
theorem C10_from_cstr_null_witness :
    mu_string_from_cstr [] none = MU_STRING_EMPTY
    ∧ mu_string_from_buf none 3 = MU_STRING_INVALID :=
  ⟨(C10_from_cstr_null []).1, (C10_from_cstr_null []).2.2.2.2.2 3 (by decide)⟩

/-- Claim C4: when the subject is valid, the predicate is non-null and no
byte of the subject satisfies it, mu_string_split_by_pred returns the whole
subject as "before" and, when `after` is requested, writes into it the
empty view positioned at the end of the subject (buf = s.buf + s.len,
len = 0) rather than the NotFound sentinel. -/
theorem C4_split_by_pred_no_match (m : Mem) (s : mu_string_t) (q : Nat → Bool)
    (hv : mu_string_is_valid s = true)
    (hnm : ∀ b ∈ viewBytes m s, q b = false) :
    mu_string_split_by_pred m s true (some q) = (s, some ⟨bufAdd s.buf s.len, 0⟩)
    ∧ mu_string_split_by_pred m s false (some q) = (s, none) := by
  have hidx : (match s.buf with
      | some a => (findFirstIdx (fun i => q (rd m (a + i))) s.len).getD s.len
      | none => s.len) = s.len := by
    cases hb : s.buf with
    | none => rfl
    | some a =>
      have : findFirstIdx (fun i => q (rd m (a + i))) s.len = none := by
        apply findFirstIdx_eq_none
        intro j hj
        apply hnm
        have : rd m (a + j) ∈ readBytes m a s.len := rd_mem_readBytes m s.len a j hj
        simpa [viewBytes, hb] using this
      simp [this]
  constructor
  · simp [mu_string_split_by_pred, hv, hidx]
  · simp [mu_string_split_by_pred, hv, hidx]

/-- Witness for C4: "abcdef" contains no decimal digit. -/
theorem C4_split_by_pred_no_match_witness :
    mu_string_split_by_pred [97, 98, 99, 100, 101, 102] ⟨some 0, 6⟩ true
        (some (fun b => decide (48 ≤ b) && decide (b ≤ 57)))
      = (⟨some 0, 6⟩, some ⟨some 6, 0⟩) :=
  (C4_split_by_pred_no_match [97, 98, 99, 100, 101, 102] ⟨some 0, 6⟩
    (fun b => decide (48 ≤ b) && decide (b ≤ 57)) (by decide) (by decide)).1

/-! Fixed points of mu_string_trim, leading to idempotence. -/

theorem trim_invalid (m : Mem) (p : Option (Nat → Bool)) :
    mu_string_trim m MU_STRING_INVALID p = MU_STRING_INVALID := by
  have h : mu_string_is_valid MU_STRING_INVALID = false := by decide
  simp [mu_string_trim, h]

theorem trim_of_len_zero (m : Mem) (s : mu_string_t) (p : Option (Nat → Bool))
    (hv : mu_string_is_valid s = true) (hl : s.len = 0) :
    mu_string_trim m s p = s := by
  simp [mu_string_trim, hv, hl]

theorem trim_of_pred_none (m : Mem) (s : mu_string_t)
    (hv : mu_string_is_valid s = true) :
    mu_string_trim m s none = s := by
  simp [mu_string_trim, hv]

theorem trim_clean (m : Mem) (b L : Nat) (q : Nat → Bool) (hL : L ≠ 0)
    (h1 : q (rd m b) = false) (h2 : q (rd m (b + (L - 1))) = false) :
    mu_string_trim m ⟨some b, L⟩ (some q) = ⟨some b, L⟩ := by
  have hv : mu_string_is_valid ⟨some b, L⟩ = true := by
    simp [mu_string_is_valid]
  have hlead : leadCount m b q L = 0 := leadCount_eq_zero m q b L h1
  have htrail : trailCount m (b + 0) q (L - 0) = 0 := by
    simpa using trailCount_eq_zero m b q L hL h2
  have hne : (leadCount m b q L == L) = false := by
    rw [hlead]
    exact beq_false_of_ne (fun h => hL h.symm)
  simp only [mu_string_trim, hv, Bool.true_eq_false, if_false]
  have hlz : (L == 0) = false := beq_false_of_ne hL
  simp only [hlz, Option.isNone_some, Bool.or_false, Bool.false_eq_true, if_false]
  simp only [hne, Bool.false_eq_true, if_false, hlead, htrail]
  have hLne : (0 : Nat) ≠ L := fun h => hL h.symm
  simp [hLne]

/-- Claim C9: mu_string_trim is idempotent: trimming an already-trimmed view
with the same predicate (any predicate, including NULL) returns it
unchanged. -/
theorem C9_trim_idempotent (m : Mem) (s : mu_string_t) (p : Option (Nat → Bool)) :
    mu_string_trim m (mu_string_trim m s p) p = mu_string_trim m s p := by
  by_cases hv : mu_string_is_valid s = true
  · by_cases hl : s.len = 0
    · rw [trim_of_len_zero m s p hv hl, trim_of_len_zero m s p hv hl]
    · cases hp : p with
      | none => rw [trim_of_pred_none m s hv, trim_of_pred_none m s hv]
      | some q =>
        obtain ⟨a, hb⟩ := valid_buf_of_len_ne_zero s hv hl
        by_cases hst : leadCount m a q s.len = s.len
        · have h1 : mu_string_trim m s (some q) = MU_STRING_EMPTY := by
            have hlz : (s.len == 0) = false := beq_false_of_ne hl
            simp only [mu_string_trim, hv, Bool.true_eq_false, if_false, hlz,
              Option.isNone_some, Bool.or_false, Bool.false_eq_true, hb]
            simp [hst]
          rw [h1]
          exact trim_of_len_zero m MU_STRING_EMPTY (some q) (by decide) rfl
        · set st := leadCount m a q s.len with hstdef
          set w := s.len - st with hwdef
          set t := trailCount m (a + st) q w with htdef
          have hstlt : st < s.len := Nat.lt_of_le_of_ne (leadCount_le m q s.len a) hst
          have hq1 : q (rd m (a + st)) = false := leadCount_false_at m q s.len a hstlt
          have hwpos : 0 < w := by omega
          have htle : t ≤ w := trailCount_le m (a + st) q w
          have htne : t ≠ w := by
            intro h
            have := trailCount_all_of_eq m (a + st) q w h 0 hwpos
            simp only [Nat.add_zero] at this
            rw [hq1] at this
            exact Bool.false_ne_true this
          have htlt : t < w := Nat.lt_of_le_of_ne htle htne
          have hq2 : q (rd m ((a + st) + (w - t - 1))) = false :=
            trailCount_false_at m (a + st) q w htlt
          have h1 : mu_string_trim m s (some q) = ⟨some (a + st), w - t⟩ := by
            have hlz : (s.len == 0) = false := beq_false_of_ne hl
            have hne : (leadCount m a q s.len == s.len) = false := beq_false_of_ne hst
            simp only [mu_string_trim, hv, Bool.true_eq_false, if_false, hlz,
              Option.isNone_some, Bool.or_false, Bool.false_eq_true, hb]
            simp only [hne, Bool.false_eq_true, if_false]
          rw [h1]
          have hrl : w - t ≠ 0 := by omega
          have hlast : q (rd m ((a + st) + ((w - t) - 1))) = false := by
            have : (w - t) - 1 = w - t - 1 := rfl
            rw [this]
            exact hq2
          exact trim_clean m (a + st) (w - t) q hrl hq1 hlast
  · have hv' : mu_string_is_valid s = false := by
      cases h : mu_string_is_valid s with
      | true => exact absurd h hv
      | false => rfl
    have h1 : mu_string_trim m s p = MU_STRING_INVALID := by
      simp [mu_string_trim, hv']
    rw [h1, trim_invalid]

/-! Slice index normalization facts. -/

theorem normIdx_le (len : Nat) (idx : Int) : normIdx len idx ≤ len :=
  Nat.min_le_right _ _

theorem normIdx_nonneg_eq (len : Nat) (idx : Int) (h : 0 ≤ idx) :
    normIdx len idx = min idx.toNat len := by
  have h2 : ¬ idx < 0 := Int.not_lt.mpr h
  simp [normIdx, h2]

theorem normIdx_neg_eq (len : Nat) (idx : Int) (h : idx < 0) :
    (normIdx len idx : Int) = min (max ((len : Int) + idx) 0) (len : Int) := by
  simp only [normIdx, if_pos h]
  by_cases h2 : (len : Int) + idx < 0
  · simp only [if_pos h2]
    omega
  · simp only [if_neg h2]
    omega

/-- Claim C3 (counterexample): on a valid view of length 2^31 (representable
as a size_t length), slicing with the MU_STRING_END sentinel (INT_MAX =
2^31 - 1) does not clamp the end index to the length L: the result has
length 2^31 - 1, not L, so the claim that MU_STRING_END always clamps to L
is false. -/
theorem C3_end_sentinel_counterexample :
    mu_string_is_valid ⟨some 0, 2 ^ 31⟩ = true
    ∧ mu_string_slice ⟨some 0, 2 ^ 31⟩ 0 MU_STRING_END = ⟨some 0, 2 ^ 31 - 1⟩
    ∧ mu_string_slice ⟨some 0, 2 ^ 31⟩ 0 MU_STRING_END ≠ ⟨some 0, 2 ^ 31⟩
    ∧ normIdx (2 ^ 31) MU_STRING_END ≠ 2 ^ 31 := by
  refine ⟨by decide, by decide, by decide, by decide⟩

/-- Claim C3 (amended): for every valid view s of length L and all integer
indices, mu_string_slice maps a negative index idx to L + idx and clamps
each index into [0, L]; MU_STRING_END (being INT_MAX) clamps to
min(INT_MAX, L), hence to L whenever L ≤ INT_MAX; if the normalized start
is at least the normalized end the result is Empty, otherwise the result is
the subrange of s between the two normalized indices; the result length
never exceeds L; and slicing an 8-byte view with (-2, MU_STRING_END) yields
its final 2 bytes. -/
theorem C3_slice_spec (s : mu_string_t) (start stop : Int)
    (hv : mu_string_is_valid s = true) :
    (normIdx s.len start ≤ s.len ∧ normIdx s.len stop ≤ s.len)
    ∧ (0 ≤ start → normIdx s.len start = min start.toNat s.len)
    ∧ (start < 0 →
        (normIdx s.len start : Int) = min (max ((s.len : Int) + start) 0) (s.len : Int))
    ∧ (normIdx s.len stop ≤ normIdx s.len start →
        mu_string_slice s start stop = MU_STRING_EMPTY)
    ∧ (∀ a, s.buf = some a → normIdx s.len start < normIdx s.len stop →
        mu_string_slice s start stop
          = ⟨some (a + normIdx s.len start), normIdx s.len stop - normIdx s.len start⟩)
    ∧ (mu_string_slice s start stop).len ≤ s.len
    ∧ normIdx s.len MU_STRING_END = min (2 ^ 31 - 1) s.len
    ∧ (∀ b : Nat, mu_string_slice ⟨some b, 8⟩ (-2) MU_STRING_END = ⟨some (b + 6), 2⟩) := by
  refine ⟨⟨normIdx_le _ _, normIdx_le _ _⟩, ?_, ?_, ?_, ?_, ?_, ?_, ?_⟩
  · intro h; exact normIdx_nonneg_eq s.len start h
  · intro h; exact normIdx_neg_eq s.len start h
  · intro h
    by_cases hl : s.len = 0
    · simp [mu_string_slice, hv, hl]
    · have hlz : (s.len == 0) = false := beq_false_of_ne hl
      simp [mu_string_slice, hv, hlz, h]
  · intro a hb h
    have hl : s.len ≠ 0 := by
      have := normIdx_le s.len stop
      omega
    have hlz : (s.len == 0) = false := beq_false_of_ne hl
    have hns : ¬ normIdx s.len stop ≤ normIdx s.len start := by omega
    simp [mu_string_slice, hv, hlz, hns, hb]
  · by_cases hl : s.len = 0
    · simp [mu_string_slice, hv, hl, MU_STRING_EMPTY]
    · have hlz : (s.len == 0) = false := beq_false_of_ne hl
      by_cases h : normIdx s.len stop ≤ normIdx s.len start
      · simp [mu_string_slice, hv, hlz, h, MU_STRING_EMPTY]
      · obtain ⟨a, hb⟩ := valid_buf_of_len_ne_zero s hv hl
        have he := normIdx_le s.len stop
        simp only [mu_string_slice, hv, Bool.true_eq_false, if_false, hlz, h, hb]
        simp only [Bool.false_eq_true, if_false]
        omega
  · have hend : (0 : Int) ≤ MU_STRING_END := by decide
    rw [normIdx_nonneg_eq s.len MU_STRING_END hend]
    have : MU_STRING_END.toNat = 2 ^ 31 - 1 := by decide
    rw [this]
  · intro b
    have h1 : normIdx 8 (-2) = 6 := by decide
    have h2 : normIdx 8 MU_STRING_END = 8 := by decide
    have hv8 : mu_string_is_valid ⟨some b, 8⟩ = true := by simp [mu_string_is_valid]
    norm_num [mu_string_slice, hv8, h1, h2]

/-- Witness for C3 at a concrete input: an 8-byte view at address 100. -/
theorem C3_slice_spec_witness :
    mu_string_slice ⟨some 100, 8⟩ (-2) MU_STRING_END = ⟨some 106, 2⟩ :=
  (C3_slice_spec ⟨some 100, 8⟩ (-2) MU_STRING_END (by decide)).2.2.2.2.2.2.2 100

/-! Search-engine sentinel behavior (claim C8). -/

theorem valid_len_zero_of_buf_none (s : mu_string_t)
    (hv : mu_string_is_valid s = true) (hb : s.buf = none) : s.len = 0 := by
  simp only [mu_string_is_valid, hb, Option.isSome_none, Bool.false_or, beq_iff_eq] at hv
  exact hv

theorem mem_viewBytes_of_lt (m : Mem) (s : mu_string_t) (a j : Nat)
    (hb : s.buf = some a) (hj : j < s.len) : rd m (a + j) ∈ viewBytes m s := by
  have := rd_mem_readBytes m s.len a j hj
  simpa [viewBytes, hb] using this

/-- Claim C8: every search operation (find_char, rfind_char, find_pred,
rfind_pred, find_first_not_pred, find_str) returns Invalid on an Invalid
subject, and returns the Empty view (never the NotFound sentinel) on an
empty-but-valid subject and on a valid subject with no match; for find_str
an empty needle returns the haystack itself. -/
theorem C8_search_sentinels (m : Mem) (s hay needle : mu_string_t) (c : Nat)
    (p : Option (Nat → Bool)) :
    (mu_string_is_valid s = false →
      mu_string_find_char m s c = MU_STRING_INVALID
      ∧ mu_string_rfind_char m s c = MU_STRING_INVALID
      ∧ mu_string_find_pred m s p = MU_STRING_INVALID
      ∧ mu_string_rfind_pred m s p = MU_STRING_INVALID
      ∧ mu_string_find_first_not_pred m s p = MU_STRING_INVALID)
    ∧ (mu_string_is_valid hay = false →
        mu_string_find_str m hay needle = MU_STRING_INVALID)
    ∧ (mu_string_is_valid s = true → s.len = 0 →
        mu_string_find_char m s c = MU_STRING_EMPTY
        ∧ mu_string_rfind_char m s c = MU_STRING_EMPTY
        ∧ mu_string_find_pred m s p = MU_STRING_EMPTY
        ∧ mu_string_rfind_pred m s p = MU_STRING_EMPTY
        ∧ mu_string_find_first_not_pred m s p = MU_STRING_EMPTY)
    ∧ (mu_string_is_valid s = true → c ∉ viewBytes m s →
        mu_string_find_char m s c = MU_STRING_EMPTY
        ∧ mu_string_rfind_char m s c = MU_STRING_EMPTY)
    ∧ (mu_string_is_valid s = true → (∀ b ∈ viewBytes m s, muPredApp p b = false) →
        mu_string_find_pred m s p = MU_STRING_EMPTY
        ∧ mu_string_rfind_pred m s p = MU_STRING_EMPTY)
    ∧ (mu_string_is_valid s = true → ∀ q, p = some q →
        (∀ b ∈ viewBytes m s, q b = true) →
        mu_string_find_first_not_pred m s p = MU_STRING_EMPTY)
    ∧ (mu_string_is_valid hay = true → mu_string_is_valid needle = true →
        needle.len = 0 → mu_string_find_str m hay needle = hay)
    ∧ (mu_string_is_valid hay = true → mu_string_is_valid needle = true →
        needle.len ≠ 0 →
        (∀ i ha na, hay.buf = some ha → needle.buf = some na →
          i + needle.len ≤ hay.len →
          readBytes m (ha + i) needle.len ≠ readBytes m na needle.len) →
        mu_string_find_str m hay needle = MU_STRING_EMPTY)
    ∧ MU_STRING_EMPTY ≠ MU_STRING_NOT_FOUND
    ∧ MU_STRING_EMPTY ≠ MU_STRING_INVALID := by
  refine ⟨?_, ?_, ?_, ?_, ?_, ?_, ?_, ?_, by decide, by decide⟩
  · intro hv
    refine ⟨?_, ?_, ?_, ?_, ?_⟩ <;>
      simp [mu_string_find_char, mu_string_rfind_char, mu_string_find_pred,
        mu_string_rfind_pred, mu_string_find_first_not_pred, hv]
  · intro hv
    simp [mu_string_find_str, hv]
  · intro hv hl
    refine ⟨?_, ?_, ?_, ?_, ?_⟩ <;>
      simp [mu_string_find_char, mu_string_rfind_char, mu_string_find_pred,
        mu_string_rfind_pred, mu_string_find_first_not_pred, hv, hl]
  · intro hv hc
    by_cases hl : s.len = 0
    · constructor <;> simp [mu_string_find_char, mu_string_rfind_char, hv, hl]
    · obtain ⟨a, hb⟩ := valid_buf_of_len_ne_zero s hv hl
      have hlz : (s.len == 0) = false := beq_false_of_ne hl
      have hnm : ∀ j, j < s.len → (rd m (a + j) == c) = false := by
        intro j hj
        apply beq_false_of_ne
        intro heq
        exact hc (heq ▸ mem_viewBytes_of_lt m s a j hb hj)
      constructor
      · have hff : findFirstIdx (fun i => rd m (a + i) == c) s.len = none :=
          findFirstIdx_eq_none _ _ hnm
        simp [mu_string_find_char, hv, hlz, hb, hff]
      · have hfl : findLastIdx (fun i => rd m (a + i) == c) s.len = none :=
          findLastIdx_eq_none _ _ hnm
        simp [mu_string_rfind_char, hv, hlz, hb, hfl]
  · intro hv hnm
    cases hp : p with
    | none =>
      constructor <;> simp [mu_string_find_pred, mu_string_rfind_pred, hv]
    | some q =>
      by_cases hl : s.len = 0
      · constructor <;> simp [mu_string_find_pred, mu_string_rfind_pred, hv, hl]
      · obtain ⟨a, hb⟩ := valid_buf_of_len_ne_zero s hv hl
        have hlz : (s.len == 0) = false := beq_false_of_ne hl
        have hnm2 : ∀ j, j < s.len → q (rd m (a + j)) = false := by
          intro j hj
          have := hnm (rd m (a + j)) (mem_viewBytes_of_lt m s a j hb hj)
          simpa [hp, muPredApp] using this
        constructor
        · have hff : findFirstIdx (fun i => q (rd m (a + i))) s.len = none :=
            findFirstIdx_eq_none _ _ hnm2
          simp [mu_string_find_pred, hv, hlz, hb, hff]
        · have hfl : findLastIdx (fun i => q (rd m (a + i))) s.len = none :=
            findLastIdx_eq_none _ _ hnm2
          simp [mu_string_rfind_pred, hv, hlz, hb, hfl]
  · intro hv q hp hall
    by_cases hl : s.len = 0
    · simp [mu_string_find_first_not_pred, hv, hl]
    · obtain ⟨a, hb⟩ := valid_buf_of_len_ne_zero s hv hl
      have hlz : (s.len == 0) = false := beq_false_of_ne hl
      have hlead : leadCount m a q s.len = s.len :=
        leadCount_eq_of_all m q s.len a
          (fun i hi => hall (rd m (a + i)) (mem_viewBytes_of_lt m s a i hb hi))
      simp [mu_string_find_first_not_pred, hv, hlz, hp, hb, hlead]
  · intro hv hnv hnl
    simp [mu_string_find_str, hv, hnv, hnl]
  · intro hv hnv hnl hnm
    have hnlz : (needle.len == 0) = false := beq_false_of_ne hnl
    by_cases hlen : hay.len < needle.len
    · simp [mu_string_find_str, hv, hnv, hnlz, hlen]
    · have hle : needle.len ≤ hay.len := Nat.le_of_not_lt hlen
      have hhl : hay.len ≠ 0 := by omega
      obtain ⟨ha, hhb⟩ := valid_buf_of_len_ne_zero hay hv hhl
      obtain ⟨na, hnb⟩ := valid_buf_of_len_ne_zero needle hnv hnl
      have hff : findFirstIdx
          (fun i => readBytes m (ha + i) needle.len == readBytes m na needle.len)
          (hay.len - needle.len + 1) = none := by
        apply findFirstIdx_eq_none
        intro j hj
        apply beq_false_of_ne
        exact hnm j ha na hhb hnb (by omega)
      simp [mu_string_find_str, hv, hnv, hnlz, hlen, hhb, hnb, hff]

/-- Witness for C8 at concrete inputs (memory holding "abc" at address 10). -/
theorem C8_search_sentinels_witness :
    mu_string_find_char [0, 0, 0, 0, 0, 0, 0, 0, 0, 0, 97, 98, 99] ⟨none, 3⟩ 61
        = MU_STRING_INVALID
    ∧ mu_string_rfind_char [0, 0, 0, 0, 0, 0, 0, 0, 0, 0, 97, 98, 99] ⟨some 10, 0⟩ 61
        = MU_STRING_EMPTY
    ∧ mu_string_find_char [0, 0, 0, 0, 0, 0, 0, 0, 0, 0, 97, 98, 99] ⟨some 10, 3⟩ 120
        = MU_STRING_EMPTY
    ∧ mu_string_find_first_not_pred [0, 0, 0, 0, 0, 0, 0, 0, 0, 0, 97, 98, 99]
        ⟨some 10, 3⟩ (some (fun b => decide (97 ≤ b))) = MU_STRING_EMPTY
    ∧ mu_string_find_str [0, 0, 0, 0, 0, 0, 0, 0, 0, 0, 97, 98, 99] ⟨some 10, 3⟩
        ⟨some 10, 0⟩ = ⟨some 10, 3⟩
    ∧ mu_string_find_str [0, 0, 0, 0, 0, 0, 0, 0, 0, 0, 97, 98, 99, 120, 121]
        ⟨some 10, 3⟩ ⟨some 13, 2⟩ = MU_STRING_EMPTY := by
  refine ⟨((C8_search_sentinels [0, 0, 0, 0, 0, 0, 0, 0, 0, 0, 97, 98, 99]
      ⟨none, 3⟩ ⟨none, 3⟩ ⟨none, 3⟩ 61 none).1 (by decide)).1,
    (((C8_search_sentinels [0, 0, 0, 0, 0, 0, 0, 0, 0, 0, 97, 98, 99]
      ⟨some 10, 0⟩ ⟨some 10, 0⟩ ⟨some 10, 0⟩ 61 none).2.2.1 (by decide) (by decide)).2).1,
    ((C8_search_sentinels [0, 0, 0, 0, 0, 0, 0, 0, 0, 0, 97, 98, 99]
      ⟨some 10, 3⟩ ⟨some 10, 3⟩ ⟨some 10, 3⟩ 120 none).2.2.2.1 (by decide) (by decide)).1,
    (C8_search_sentinels [0, 0, 0, 0, 0, 0, 0, 0, 0, 0, 97, 98, 99]
      ⟨some 10, 3⟩ ⟨some 10, 3⟩ ⟨some 10, 3⟩ 120
      (some (fun b => decide (97 ≤ b)))).2.2.2.2.2.1 (by decide) _ rfl (by decide),
    (C8_search_sentinels [0, 0, 0, 0, 0, 0, 0, 0, 0, 0, 97, 98, 99]
      ⟨some 10, 3⟩ ⟨some 10, 3⟩ ⟨some 10, 0⟩ 61 none).2.2.2.2.2.2.1
      (by decide) (by decide) rfl,
    (C8_search_sentinels [0, 0, 0, 0, 0, 0, 0, 0, 0, 0, 97, 98, 99, 120, 121]
      ⟨some 10, 3⟩ ⟨some 10, 3⟩ ⟨some 13, 2⟩ 61 none).2.2.2.2.2.2.2.1
      (by decide) (by decide) (by decide)
      (by
        intro i ha na hha hnb hle
        have h1 : ha = 10 := by simp at hha; omega
        have h2 : na = 13 := by simp at hnb; omega
        have hi : i = 0 ∨ i = 1 := by simp at hle; omega
        subst h1; subst h2
        rcases hi with rfl | rfl <;> decide)⟩

/-- Claim C7: mu_string_find_str returns the haystack unchanged on an empty
needle; Empty when the needle is longer than the haystack; the suffix of the
haystack starting at the first index where the needle occurs (through the
end of the haystack) when there is a match; and Empty when there is none. -/
theorem C7_find_str_spec (m : Mem) (hay needle : mu_string_t)
    (hv : mu_string_is_valid hay = true) (hnv : mu_string_is_valid needle = true) :
    (needle.len = 0 → mu_string_find_str m hay needle = hay)
    ∧ (hay.len < needle.len → mu_string_find_str m hay needle = MU_STRING_EMPTY)
    ∧ (∀ ha na i, hay.buf = some ha → needle.buf = some na → needle.len ≠ 0 →
        i + needle.len ≤ hay.len →
        readBytes m (ha + i) needle.len = readBytes m na needle.len →
        (∀ j, j < i → readBytes m (ha + j) needle.len ≠ readBytes m na needle.len) →
        mu_string_find_str m hay needle = ⟨some (ha + i), hay.len - i⟩)
    ∧ (needle.len ≠ 0 → needle.len ≤ hay.len →
        (∀ i ha na, hay.buf = some ha → needle.buf = some na →
          i + needle.len ≤ hay.len →
          readBytes m (ha + i) needle.len ≠ readBytes m na needle.len) →
        mu_string_find_str m hay needle = MU_STRING_EMPTY) := by
  refine ⟨?_, ?_, ?_, ?_⟩
  · intro h
    simp [mu_string_find_str, hv, hnv, h]
  · intro h
    have hnl : needle.len ≠ 0 := by omega
    have hnlz : (needle.len == 0) = false := beq_false_of_ne hnl
    simp [mu_string_find_str, hv, hnv, hnlz, h]
  · intro ha na i hhb hnb hnl hle heq hmin
    have hnlz : (needle.len == 0) = false := beq_false_of_ne hnl
    have hlen : ¬ hay.len < needle.len := by omega
    have hff : findFirstIdx
        (fun j => readBytes m (ha + j) needle.len == readBytes m na needle.len)
        (hay.len - needle.len + 1) = some i := by
      apply findFirstIdx_eq_some _ _ i (by omega)
      · exact beq_iff_eq.mpr heq
      · intro l hl
        exact beq_false_of_ne (hmin l hl)
    simp [mu_string_find_str, hv, hnv, hnlz, hlen, hhb, hnb, hff]
  · intro hnl hle hnm
    have hnlz : (needle.len == 0) = false := beq_false_of_ne hnl
    have hlen : ¬ hay.len < needle.len := by omega
    have hhl : hay.len ≠ 0 := by omega
    obtain ⟨ha, hhb⟩ := valid_buf_of_len_ne_zero hay hv hhl
    obtain ⟨na, hnb⟩ := valid_buf_of_len_ne_zero needle hnv hnl
    have hff : findFirstIdx
        (fun j => readBytes m (ha + j) needle.len == readBytes m na needle.len)
        (hay.len - needle.len + 1) = none := by
      apply findFirstIdx_eq_none
      intro j hj
      exact beq_false_of_ne (hnm j ha na hhb hnb (by omega))
    simp [mu_string_find_str, hv, hnv, hnlz, hlen, hhb, hnb, hff]

/-- Witness for C7: findSubstring("hello world world", "world") is the
"world world" suffix (the haystack lives at address 0, the needle at 17). -/
theorem C7_find_str_spec_witness :
    mu_string_find_str
      [104, 101, 108, 108, 111, 32, 119, 111, 114, 108, 100, 32,
       119, 111, 114, 108, 100, 119, 111, 114, 108, 100]
      ⟨some 0, 17⟩ ⟨some 17, 5⟩ = ⟨some 6, 11⟩ :=
  (C7_find_str_spec
    [104, 101, 108, 108, 111, 32, 119, 111, 114, 108, 100, 32,
     119, 111, 114, 108, 100, 119, 111, 114, 108, 100]
    ⟨some 0, 17⟩ ⟨some 17, 5⟩ (by decide) (by decide)).2.2.1 0 17 6 rfl rfl
    (by decide) (by decide) (by decide) (by decide)

/-! Write-cursor engine (claims C5 and C6). -/

theorem viewBytes_of_some (m : Mem) (u : mu_string_t) (a : Nat)
    (hub : u.buf = some a) : viewBytes m u = readBytes m a u.len := by
  simp [viewBytes, hub]

theorem viewBytes_length_of_valid (m : Mem) (v : mu_string_t)
    (hv : mu_string_is_valid v = true) : (viewBytes m v).length = v.len := by
  cases hb : v.buf with
  | some a => simp [viewBytes, hb, readBytes_length]
  | none =>
    have := valid_len_zero_of_buf_none v hv hb
    simp [viewBytes, hb, this]

/-- Claim C5: mu_string_append returns the input segment unchanged when the
segment buffer is NULL or the source is Invalid or empty; otherwise it
writes exactly min(src.len, segment.len) source bytes at segment.buf[0]
(truncating silently on insufficient capacity), leaves every other byte of
memory unchanged, and returns the segment advanced by the number of bytes
written. -/
theorem C5_append_spec (m : Mem) (dst : mu_string_mut_t) (src : mu_string_t) :
    ((dst.buf = none ∨ mu_string_is_valid src = false ∨ src.len = 0) →
      mu_string_append m dst src = (m, dst))
    ∧ (∀ b, dst.buf = some b → mu_string_is_valid src = true → src.len ≠ 0 →
        b + dst.len ≤ m.length →
        (mu_string_append m dst src).2
            = ⟨some (b + min src.len dst.len), dst.len - min src.len dst.len⟩
        ∧ readBytes (mu_string_append m dst src).1 b (min src.len dst.len)
            = (viewBytes m src).take (min src.len dst.len)
        ∧ (∀ x, x < b ∨ b + min src.len dst.len ≤ x →
            rd (mu_string_append m dst src).1 x = rd m x)) := by
  constructor
  · intro h
    rcases h with h | h | h
    · simp [mu_string_append, h]
    · cases hb : dst.buf with
      | none => simp [mu_string_append, hb]
      | some b => simp [mu_string_append, hb, h]
    · cases hb : dst.buf with
      | none => simp [mu_string_append, hb]
      | some b => simp [mu_string_append, hb, h]
  · intro b hb hsv hsl hbound
    have hslz : (src.len == 0) = false := beq_false_of_ne hsl
    have happ : mu_string_append m dst src
        = (writeBytes m b ((viewBytes m src).take (min src.len dst.len)),
           ⟨some (b + min src.len dst.len), dst.len - min src.len dst.len⟩) := by
      simp [mu_string_append, hb, hsv, hslz]
    have hbl : ((viewBytes m src).take (min src.len dst.len)).length
        = min src.len dst.len := by
      rw [List.length_take, viewBytes_length_of_valid m src hsv]
      omega
    refine ⟨by rw [happ], ?_, ?_⟩
    · rw [happ]
      have := readBytes_writeBytes m ((viewBytes m src).take (min src.len dst.len)) b
        (by rw [hbl]; omega)
      rw [hbl] at this
      exact this
    · intro x hx
      rw [happ]
      exact rd_writeBytes_outside m _ b x (by rw [hbl]; omega)

/-- Witness for C5: appending "abc" (at address 5) into a 5-byte segment at
address 0 writes 3 bytes and leaves a 2-byte segment; appending an Invalid
source returns the segment unchanged. -/
theorem C5_append_spec_witness :
    (mu_string_append [0, 0, 0, 0, 0, 97, 98, 99] ⟨some 0, 5⟩ ⟨some 5, 3⟩).2
        = ⟨some 3, 2⟩
    ∧ readBytes (mu_string_append [0, 0, 0, 0, 0, 97, 98, 99]
        ⟨some 0, 5⟩ ⟨some 5, 3⟩).1 0 3 = [97, 98, 99]
    ∧ mu_string_append [0, 0, 0, 0, 0, 97, 98, 99] ⟨some 0, 5⟩ MU_STRING_INVALID
        = ([0, 0, 0, 0, 0, 97, 98, 99], ⟨some 0, 5⟩) := by
  have h := (C5_append_spec [0, 0, 0, 0, 0, 97, 98, 99] ⟨some 0, 5⟩ ⟨some 5, 3⟩).2
    0 rfl (by decide) (by decide) (by decide)
  exact ⟨h.1, h.2.1.trans (by decide),
    (C5_append_spec [0, 0, 0, 0, 0, 97, 98, 99] ⟨some 0, 5⟩ MU_STRING_INVALID).1
      (Or.inr (Or.inl (by decide)))⟩

theorem append_step (m : Mem) (b cap : Nat) (v : mu_string_t)
    (hv : mu_string_is_valid v = true) (hL : v.len ≤ cap) :
    mu_string_append m ⟨some b, cap⟩ v
      = (writeBytes m b (viewBytes m v), ⟨some (b + v.len), cap - v.len⟩) := by
  by_cases hl : v.len = 0
  · have hbytes : viewBytes m v = [] := by
      cases hb : v.buf with
      | some a => simp only [viewBytes, hb, hl, readBytes]
      | none => simp [viewBytes, hb]
    simp [mu_string_append, hv, hl, hbytes, writeBytes]
  · obtain ⟨a, hb⟩ := valid_buf_of_len_ne_zero v hv hl
    have hlz : (v.len == 0) = false := beq_false_of_ne hl
    have hw : min v.len cap = v.len := Nat.min_eq_left hL
    simp [mu_string_append, hv, hlz, hw]
    rw [List.take_of_length_le (le_of_eq (viewBytes_length_of_valid m v hv))]

/-- Claim C6: chaining mu_string_append over any sequence of valid views
that are separated from the destination buffer and whose total length N
fits the capacity writes the exact concatenation of the views into the
first N bytes of the buffer, leaves all other memory unchanged, and ends
with a segment of remaining capacity cap - N. -/
theorem C6_append_chain :
    ∀ (vs : List mu_string_t) (m : Mem) (b cap : Nat),
      b + cap ≤ m.length →
      (∀ v ∈ vs, mu_string_is_valid v = true) →
      (∀ v ∈ vs, sep b cap v = true) →
      totalLen vs ≤ cap →
      (mu_string_append_all m ⟨some b, cap⟩ vs).2
          = ⟨some (b + totalLen vs), cap - totalLen vs⟩
      ∧ readBytes (mu_string_append_all m ⟨some b, cap⟩ vs).1 b (totalLen vs)
          = (vs.map (viewBytes m)).flatten
      ∧ (∀ x, x < b ∨ b + totalLen vs ≤ x →
          rd (mu_string_append_all m ⟨some b, cap⟩ vs).1 x = rd m x)
      ∧ (mu_string_append_all m ⟨some b, cap⟩ vs).1.length = m.length := by
  intro vs
  induction vs with
  | nil =>
    intro m b cap _ _ _ _
    refine ⟨by simp [mu_string_append_all, totalLen], rfl, fun x _ => rfl, rfl⟩
  | cons v vs ih =>
    intro m b cap hcap hval hsep htot
    have hv : mu_string_is_valid v = true := hval v (List.mem_cons_self v vs)
    have hsv : sep b cap v = true := hsep v (List.mem_cons_self v vs)
    have htc : totalLen (v :: vs) = v.len + totalLen vs := by simp [totalLen]
    have hL : v.len ≤ cap := by rw [htc] at htot; omega
    have hstep := append_step m b cap v hv hL
    have hunfold : mu_string_append_all m ⟨some b, cap⟩ (v :: vs)
        = mu_string_append_all (writeBytes m b (viewBytes m v))
            ⟨some (b + v.len), cap - v.len⟩ vs := by
      simp [mu_string_append_all, hstep]
    have hm1len : (writeBytes m b (viewBytes m v)).length = m.length :=
      writeBytes_length m (viewBytes m v) b
    have hbsl : (viewBytes m v).length = v.len := viewBytes_length_of_valid m v hv
    have hcap1 : (b + v.len) + (cap - v.len) ≤ (writeBytes m b (viewBytes m v)).length := by
      rw [hm1len]; omega
    have hval1 : ∀ u ∈ vs, mu_string_is_valid u = true :=
      fun u hu => hval u (List.mem_cons_of_mem v hu)
    have hsep1 : ∀ u ∈ vs, sep (b + v.len) (cap - v.len) u = true := by
      intro u hu
      have h := hsep u (List.mem_cons_of_mem v hu)
      cases hub : u.buf with
      | none => simp [sep, hub]
      | some a =>
        simp only [sep, hub, Bool.or_eq_true, decide_eq_true_eq] at h ⊢
        omega
    have htot1 : totalLen vs ≤ cap - v.len := by rw [htc] at htot; omega
    have ihres := ih (writeBytes m b (viewBytes m v)) (b + v.len) (cap - v.len)
      hcap1 hval1 hsep1 htot1
    have hpres : ∀ u ∈ vs, viewBytes (writeBytes m b (viewBytes m v)) u = viewBytes m u := by
      intro u hu
      have h := hsep u (List.mem_cons_of_mem v hu)
      cases hub : u.buf with
      | none => simp [viewBytes, hub]
      | some a =>
        rw [viewBytes_of_some (writeBytes m b (viewBytes m v)) u a hub,
          viewBytes_of_some m u a hub]
        apply readBytes_congr
        intro j hj
        apply rd_writeBytes_outside
        simp only [sep, hub, Bool.or_eq_true, decide_eq_true_eq] at h
        rcases h with h | h
        · left; omega
        · right; rw [hbsl]; omega
    refine ⟨?_, ?_, ?_, ?_⟩
    · rw [hunfold, ihres.1, htc]
      have e1 : b + v.len + totalLen vs = b + (v.len + totalLen vs) := by omega
      have e2 : cap - v.len - totalLen vs = cap - (v.len + totalLen vs) := by omega
      rw [e1, e2]
    · rw [hunfold, htc, readBytes_split _ v.len (totalLen vs) b]
      have hsecond : readBytes (mu_string_append_all (writeBytes m b (viewBytes m v))
            ⟨some (b + v.len), cap - v.len⟩ vs).1 (b + v.len) (totalLen vs)
          = (vs.map (viewBytes m)).flatten := by
        rw [ihres.2.1]
        congr 1
        exact List.map_congr_left hpres
      have hfirst : readBytes (mu_string_append_all (writeBytes m b (viewBytes m v))
            ⟨some (b + v.len), cap - v.len⟩ vs).1 b v.len
          = viewBytes m v := by
        have hc : readBytes (mu_string_append_all (writeBytes m b (viewBytes m v))
              ⟨some (b + v.len), cap - v.len⟩ vs).1 b v.len
            = readBytes (writeBytes m b (viewBytes m v)) b v.len := by
          apply readBytes_congr
          intro j hj
          exact ihres.2.2.1 (b + j) (Or.inl (by omega))
        rw [hc]
        have := readBytes_writeBytes m (viewBytes m v) b (by rw [hbsl]; omega)
        rw [hbsl] at this
        exact this
      rw [hfirst, hsecond]
      simp
    · intro x hx
      rw [hunfold]
      have h1 : rd (mu_string_append_all (writeBytes m b (viewBytes m v))
            ⟨some (b + v.len), cap - v.len⟩ vs).1 x
          = rd (writeBytes m b (viewBytes m v)) x := by
        apply ihres.2.2.1
        rw [htc] at hx
        rcases hx with h | h
        · left; omega
        · right; omega
      rw [h1]
      apply rd_writeBytes_outside
      rw [hbsl, htc] at *
      rcases hx with h | h
      · left; exact h
      · right; omega
    · rw [hunfold, ihres.2.2.2, hm1len]

/-- Witness for C6: building "hello world!" from three views (at addresses
100, 106 and 111) with a 100-byte buffer at address 0 writes the 12-byte
concatenation and leaves 88 bytes of remaining capacity. -/
theorem C6_append_chain_witness :
    (mu_string_append_all
        (List.replicate 100 0 ++ [104, 101, 108, 108, 111, 32, 119, 111, 114, 108, 100, 33])
        ⟨some 0, 100⟩ [⟨some 100, 6⟩, ⟨some 106, 5⟩, ⟨some 111, 1⟩]).2
      = ⟨some 12, 88⟩
    ∧ readBytes (mu_string_append_all
        (List.replicate 100 0 ++ [104, 101, 108, 108, 111, 32, 119, 111, 114, 108, 100, 33])
        ⟨some 0, 100⟩ [⟨some 100, 6⟩, ⟨some 106, 5⟩, ⟨some 111, 1⟩]).1 0 12
      = [104, 101, 108, 108, 111, 32, 119, 111, 114, 108, 100, 33] := by
  have h := C6_append_chain [⟨some 100, 6⟩, ⟨some 106, 5⟩, ⟨some 111, 1⟩]
    (List.replicate 100 0 ++ [104, 101, 108, 108, 111, 32, 119, 111, 114, 108, 100, 33])
    0 100 (by decide) (by decide) (by decide) (by decide)
  exact ⟨h.1.trans (by decide), h.2.1.trans (by decide)⟩

end MuString
